import Mathlib

/-!
Verification of the retrieval consolidation engine: window arithmetic for
context enrichment, overlap-aware chunk stitching, flat multi-query result
merging (deduplication and score averaging), hierarchical (parent/child)
result merging, and the enrichment pipeline's per-group accumulator.

Machine integers are modelled as `ℤ`/`ℕ`, Python floats as exact rationals
`ℚ`, Python strings as `String` or `List Char`, insertion-ordered Python
dicts as association lists, and Python's stable `sorted` as
`List.insertionSort`.
-/

namespace RetrievalConsolidation

/-! ## WindowResolver: `_get_chunk_limits` (context_enricher.py, lines 243-288) -/

/-- Translation of `_get_chunk_limits`.  The sequential reassignments of
`start_limit` / `end_limit` in the Python body are rendered as fresh `let`
bindings.  `md_total` is the inclusive bound the end is clamped to; the
pipeline's only call site passes the group's chunk count
(`headers_comb_total`, written by `_tag_chunks_by_headers`) here, so the
clamp bound sits one past the group's last valid chunk index. -/
def get_chunk_limits (md_min md_max md_total window_size : ℤ) : ℤ × ℤ :=
  let chunk_count := md_max - md_min + 1
  if chunk_count ≥ window_size then
    (md_min, md_max)
  else
    let remaining_needed := window_size - chunk_count
    let add_before := remaining_needed / 2
    let add_after := remaining_needed - add_before
    let start_limit := md_min - add_before
    let end_limit := md_max + add_after
    let start_limit2 := if start_limit < 0 then 0 else start_limit
    let end_limit2 := if start_limit < 0 then end_limit + |start_limit| else end_limit
    if end_limit2 > md_total then
      let start_limit3 := start_limit2 - (end_limit2 - md_total)
      (if start_limit3 < 0 then 0 else start_limit3, md_total)
    else
      (start_limit2, end_limit2)

/-- The spec's `compute_window(min_position, max_position, group_size,
window_size)`: its `group_size` is the number of chunks in the group (valid
indices `0 .. group_size - 1`), and the program passes it directly as the
source's `md_total` — `enriched_context_search` hands `_get_chunk_limits`
the stored `headers_comb_total`, which `_tag_chunks_by_headers` sets to the
group's chunk count. -/
def compute_window (min_position max_position group_size window_size : ℤ) : ℤ × ℤ :=
  get_chunk_limits min_position max_position group_size window_size

/-- The window state after padding and the low-end clamp (source lines
267-281), before the high-end clamp is applied: the "tentative" range. -/
def window_pre_clamp (md_min md_max window_size : ℤ) : ℤ × ℤ :=
  let chunk_count := md_max - md_min + 1
  if chunk_count ≥ window_size then
    (md_min, md_max)
  else
    let remaining_needed := window_size - chunk_count
    let add_before := remaining_needed / 2
    let add_after := remaining_needed - add_before
    let start_limit := md_min - add_before
    let end_limit := md_max + add_after
    if start_limit < 0 then (0, end_limit + |start_limit|) else (start_limit, end_limit)

lemma get_chunk_limits_eq_clamp_pre (md_min md_max md_total window_size : ℤ)
    (h : md_max - md_min + 1 < window_size) :
    get_chunk_limits md_min md_max md_total window_size =
      if (window_pre_clamp md_min md_max window_size).2 > md_total then
        (max 0 ((window_pre_clamp md_min md_max window_size).1
          - ((window_pre_clamp md_min md_max window_size).2 - md_total)), md_total)
      else window_pre_clamp md_min md_max window_size := by
  unfold get_chunk_limits window_pre_clamp
  simp only [not_le.mpr h, if_neg (not_le.mpr h), ge_iff_le]
  split_ifs <;> simp_all <;> omega

/-- C1: the code contradicts the claimed high-end clamp.  The pipeline
passes the group's chunk count directly as `md_total`, and
`_get_chunk_limits` clamps the end at `md_total` itself — i.e. at
`group_size`, one past the last valid index — shifting one less onto the
start.  At the claim's own test vector the code returns `(6, 10)`, not the
claimed `(5, 9)`, and the returned end violates `end ≤ group_size - 1`. -/
theorem compute_window_clamp_off_by_one :
    compute_window 8 9 10 5 = (6, 10)
    ∧ compute_window 8 9 10 5 ≠ (5, 9)
    ∧ ¬ (compute_window 8 9 10 5).2 ≤ 10 - 1 := by
  decide

/-- C2 counterexample: `compute_window(5, 5, group_size := 20, window_size := 4)`
returns `(4, 7)` (before = 1, after = 2, so the end is `5 + 2 = 7`), not the
claimed `(4, 6)`. -/
theorem compute_window_odd_remainder_cex :
    compute_window 5 5 20 4 = (4, 7) ∧ compute_window 5 5 20 4 ≠ (4, 6) := by
  decide

/-- C2 (amended): when the covered range is smaller than `window_size`, the
deficit is split as `before = remaining / 2` and `after = remaining - before`
(the "after" side absorbing the odd remainder), and `compute_window` returns
`(min_position - before, max_position + after)` when no boundary clamp fires;
in particular `compute_window(5, 5, 20, 4) = (4, 7)`. -/
theorem compute_window_pads_before_after (minp maxp gs ws : ℤ)
    (hcov : maxp - minp + 1 < ws)
    (hlow : 0 ≤ minp - (ws - (maxp - minp + 1)) / 2)
    (hhigh : maxp + ((ws - (maxp - minp + 1)) - (ws - (maxp - minp + 1)) / 2) ≤ gs - 1) :
    compute_window minp maxp gs ws
      = (minp - (ws - (maxp - minp + 1)) / 2,
         maxp + ((ws - (maxp - minp + 1)) - (ws - (maxp - minp + 1)) / 2)) := by
  have hpre : window_pre_clamp minp maxp ws
      = (minp - (ws - (maxp - minp + 1)) / 2,
         maxp + ((ws - (maxp - minp + 1)) - (ws - (maxp - minp + 1)) / 2)) := by
    simp only [window_pre_clamp]
    rw [if_neg (by omega), if_neg (by omega)]
  have heq := get_chunk_limits_eq_clamp_pre minp maxp gs ws hcov
  rw [hpre] at heq
  rw [if_neg (by simp only [Prod.snd]; omega)] at heq
  exact heq

/-- Witness for C2 (amended): at `(5, 5, 20, 4)` the hypotheses hold and the
returned window is `(4, 7)`. -/
theorem compute_window_pads_before_after_witness :
    compute_window 5 5 20 4 = (4, 7) := by
  have h := compute_window_pads_before_after 5 5 20 4 (by decide) (by decide) (by decide)
  exact h.trans (by decide)

/-- C7 counterexample: on inconsistent metadata `compute_window` reports no
invalid-input error; it silently returns a range.  With
`min_position = 5 > 3 = max_position` it returns `(4, 4)`, and with
`max_position = 12 ≥ 10 = group_size` it returns `(0, 12)` unchanged. -/
theorem compute_window_no_validation_cex :
    compute_window 5 3 10 1 = (4, 4) ∧ compute_window 0 12 10 5 = (0, 12) := by
  decide

/-- C7 (amended): `compute_window` performs no input validation.  Whenever the
covered range already reaches `window_size` it returns
`(min_position, max_position)` unchanged — even when `group_size ≤ max_position`
makes that range exceed the valid indices — and on `min_position > max_position`
it still returns an arithmetically derived range instead of an error. -/
theorem compute_window_total_no_error (minp maxp gs ws : ℤ)
    (h : ws ≤ maxp - minp + 1) :
    compute_window minp maxp gs ws = (minp, maxp) := by
  unfold compute_window get_chunk_limits
  simp only [ge_iff_le, if_pos h]

/-- Witness for C7 (amended): `compute_window(0, 12, 10, 5)` returns `(0, 12)`
unchanged although `12 > 10 - 1`. -/
theorem compute_window_total_no_error_witness :
    compute_window 0 12 10 5 = (0, 12) :=
  compute_window_total_no_error 0 12 10 5 (by decide)

/-! ## ChunkStitcher: `_find_overlap` and `_merge_overlap_chunks`
(context_enricher.py, lines 291-346) -/

/-- The descending scan of `_find_overlap`: try length `n`, then `n - 1`, ...,
returning the first length whose prefix of `chunk2` is a suffix of `chunk1`
(Python's `chunk1.endswith(chunk2[:i])`), and `0` when the scan is exhausted. -/
def find_overlap_aux (chunk1 chunk2 : List Char) : ℕ → ℕ
  | 0 => 0
  | i + 1 => if chunk2.take (i + 1) <:+ chunk1 then i + 1 else find_overlap_aux chunk1 chunk2 i

/-- Translation of `_find_overlap`: scan `range(min(len(chunk1), max_overlap), 0, -1)`.
A non-positive bound yields an empty scan (`Int.toNat` sends it to `0`). -/
def find_overlap (chunk1 chunk2 : List Char) (max_overlap : ℤ) : ℕ :=
  find_overlap_aux chunk1 chunk2 (min (chunk1.length : ℤ) max_overlap).toNat

/-- A chunk as returned by the window fetch: its `headers_chunk_id`,
`chunk_overlap` metadata and page content. -/
structure WindowDoc where
  chunk_id : ℤ
  chunk_overlap : ℤ
  content : List Char
deriving DecidableEq

instance : DecidableRel (fun a b : WindowDoc => a.chunk_id ≤ b.chunk_id) :=
  fun a b => Int.decLe a.chunk_id b.chunk_id

/-- The stitching loop of `_merge_overlap_chunks`: each subsequent chunk is
appended with its first `find_overlap` characters removed. -/
def merge_overlap_rest (max_overlap : ℤ) : List Char → List WindowDoc → List Char
  | _, [] => []
  | prev, d :: ds =>
      d.content.drop (find_overlap prev d.content max_overlap)
        ++ merge_overlap_rest max_overlap d.content ds

/-- Translation of `_merge_overlap_chunks`: sort the fetched chunks by
`headers_chunk_id` (Python's stable `sorted`, modelled by `insertionSort`),
start from the first chunk's content and `chunk_overlap`, and append each
following chunk with the detected overlap removed. -/
def merge_overlap_chunks (docs : List WindowDoc) : List Char :=
  match List.insertionSort (fun a b => a.chunk_id ≤ b.chunk_id) docs with
  | [] => []
  | first :: rest => first.content ++ merge_overlap_rest first.chunk_overlap first.content rest

lemma find_overlap_aux_le (chunk1 chunk2 : List Char) :
    ∀ n, find_overlap_aux chunk1 chunk2 n ≤ n := by
  intro n
  induction n with
  | zero => simp [find_overlap_aux]
  | succ i ih =>
      simp only [find_overlap_aux]
      split_ifs
      · exact le_refl _
      · exact le_trans ih (Nat.le_succ i)

lemma find_overlap_aux_sound (chunk1 chunk2 : List Char) (n : ℕ) :
    find_overlap_aux chunk1 chunk2 n = 0
      ∨ (1 ≤ find_overlap_aux chunk1 chunk2 n
          ∧ find_overlap_aux chunk1 chunk2 n ≤ n
          ∧ chunk2.take (find_overlap_aux chunk1 chunk2 n) <:+ chunk1) := by
  induction n with
  | zero => left; simp [find_overlap_aux]
  | succ i ih =>
      by_cases h : chunk2.take (i + 1) <:+ chunk1
      · right
        simp only [find_overlap_aux, if_pos h]
        exact ⟨Nat.succ_le_succ (Nat.zero_le i), le_refl _, h⟩
      · simp only [find_overlap_aux, if_neg h]
        rcases ih with h0 | ⟨h1, h2, h3⟩
        · left; exact h0
        · right; exact ⟨h1, le_trans h2 (Nat.le_succ i), h3⟩

lemma find_overlap_aux_maximal (chunk1 chunk2 : List Char) (n : ℕ) :
    ∀ i, find_overlap_aux chunk1 chunk2 n < i → i ≤ n → ¬ chunk2.take i <:+ chunk1 := by
  induction n with
  | zero => intro i hlt hle; omega
  | succ k ih =>
      intro i hlt hle
      by_cases h : chunk2.take (k + 1) <:+ chunk1
      · simp only [find_overlap_aux, if_pos h] at hlt
        omega
      · simp only [find_overlap_aux, if_neg h] at hlt
        rcases Nat.eq_or_lt_of_le hle with rfl | hik
        · exact h
        · exact ih i hlt (by omega)

/-- C5: `find_overlap(chunk1, chunk2, max_overlap)` returns the greatest
`i` with `1 ≤ i ≤ min(len(chunk1), max_overlap)` such that `chunk1` ends
with the first `i` characters of `chunk2`, and `0` when no such `i` exists;
stitching `["the cat sat", "sat on the mat"]` with declared overlap 7
produces exactly `"the cat sat on the mat"`. -/
theorem find_overlap_greatest_and_stitch (chunk1 chunk2 : List Char) (m : ℤ) :
    (find_overlap chunk1 chunk2 m = 0
       ∨ (1 ≤ find_overlap chunk1 chunk2 m
            ∧ (find_overlap chunk1 chunk2 m : ℤ) ≤ min (chunk1.length : ℤ) m
            ∧ chunk2.take (find_overlap chunk1 chunk2 m) <:+ chunk1))
    ∧ (∀ i : ℕ, find_overlap chunk1 chunk2 m < i → (i : ℤ) ≤ min (chunk1.length : ℤ) m
         → ¬ chunk2.take i <:+ chunk1)
    ∧ merge_overlap_chunks
        [⟨0, 7, "the cat sat".toList⟩, ⟨1, 7, "sat on the mat".toList⟩]
        = "the cat sat on the mat".toList := by
  refine ⟨?_, ?_, by decide⟩
  · rcases find_overlap_aux_sound chunk1 chunk2 (min (chunk1.length : ℤ) m).toNat
      with h0 | ⟨h1, h2, h3⟩
    · left; exact h0
    · right
      exact ⟨h1, by unfold find_overlap at *; omega, h3⟩
  · intro i hlt hle
    refine find_overlap_aux_maximal chunk1 chunk2 (min (chunk1.length : ℤ) m).toNat i hlt ?_
    omega

/-- Witness for C5: at the concrete stitch input, maximality rules out an
overlap of length 4 (`find_overlap` returned 3). -/
theorem find_overlap_greatest_and_stitch_witness :
    ¬ "sat on the mat".toList.take 4 <:+ "the cat sat".toList :=
  (find_overlap_greatest_and_stitch "the cat sat".toList "sat on the mat".toList 7).2.1
    4 (by decide) (by decide)

/-! ## FlatResultMerger: `_merge_unique_documents` and
`_merge_and_average_scores` (base.py, lines 503-594).
Association lists model Python's insertion-ordered dicts. -/

/-- A langchain document as the mergers see it: its id and page content. -/
structure Doc where
  id : String
  content : String
deriving DecidableEq, Inhabited

/-- Insert-or-update in an association list: Python's
`d[k] = f(d[k])` (creating `d[k] = init` on a missing key).  An existing key
keeps its position, as in a Python dict. -/
def upsert {κ β : Type} [DecidableEq κ] (l : List (κ × β)) (k : κ) (f : β → β) (init : β) :
    List (κ × β) :=
  match l with
  | [] => [(k, init)]
  | (k0, v) :: rest => if k0 = k then (k0, f v) :: rest else (k0, v) :: upsert rest k f init

/-- The insertion order of first appearances of keys in `l`: the iteration
order of a Python dict populated by scanning `l`. -/
def first_seen_keys {α κ : Type} [DecidableEq κ] (keyOf : α → κ) (l : List α) : List κ :=
  l.foldl (fun ks x => if keyOf x ∈ ks then ks else ks ++ [keyOf x]) []

lemma foldl_keys_mem {α κ : Type} [DecidableEq κ] (keyOf : α → κ) (l : List α) :
    ∀ (ks : List κ) (k : κ),
      k ∈ l.foldl (fun ks x => if keyOf x ∈ ks then ks else ks ++ [keyOf x]) ks
        ↔ k ∈ ks ∨ k ∈ l.map keyOf := by
  induction l with
  | nil => intro ks k; simp
  | cons x xs ih =>
      intro ks k
      simp only [List.foldl_cons, ih, List.map_cons, List.mem_cons]
      by_cases h : keyOf x ∈ ks
      · simp only [if_pos h]
        constructor
        · rintro (hk | hk)
          · exact Or.inl hk
          · exact Or.inr (Or.inr hk)
        · rintro (hk | rfl | hk)
          · exact Or.inl hk
          · exact Or.inl h
          · exact Or.inr hk
      · simp only [if_neg h, List.mem_append, List.mem_singleton]
        tauto

lemma mem_first_seen_keys {α κ : Type} [DecidableEq κ] (keyOf : α → κ) (l : List α) (k : κ) :
    k ∈ first_seen_keys keyOf l ↔ k ∈ l.map keyOf := by
  simp [first_seen_keys, foldl_keys_mem]

lemma foldl_keys_nodup {α κ : Type} [DecidableEq κ] (keyOf : α → κ) (l : List α) :
    ∀ ks : List κ, ks.Nodup →
      (l.foldl (fun ks x => if keyOf x ∈ ks then ks else ks ++ [keyOf x]) ks).Nodup := by
  induction l with
  | nil => intro ks h; simpa
  | cons x xs ih =>
      intro ks h
      simp only [List.foldl_cons]
      by_cases hx : keyOf x ∈ ks
      · rw [if_pos hx]; exact ih ks h
      · rw [if_neg hx]
        exact ih _ (by simp [List.nodup_append, h, hx])

lemma first_seen_keys_nodup {α κ : Type} [DecidableEq κ] (keyOf : α → κ) (l : List α) :
    (first_seen_keys keyOf l).Nodup :=
  foldl_keys_nodup keyOf l [] List.nodup_nil

lemma first_seen_keys_append_one {α κ : Type} [DecidableEq κ] (keyOf : α → κ)
    (l : List α) (x : α) :
    first_seen_keys keyOf (l ++ [x])
      = if keyOf x ∈ first_seen_keys keyOf l then first_seen_keys keyOf l
        else first_seen_keys keyOf l ++ [keyOf x] := by
  simp [first_seen_keys, List.foldl_append]

lemma foldl_keys_absorb {α κ : Type} [DecidableEq κ] (keyOf : α → κ) (l : List α) :
    ∀ ks : List κ, (∀ x ∈ l, keyOf x ∈ ks) →
      l.foldl (fun ks x => if keyOf x ∈ ks then ks else ks ++ [keyOf x]) ks = ks := by
  induction l with
  | nil => intro ks _; rfl
  | cons x xs ih =>
      intro ks h
      simp only [List.foldl_cons, if_pos (h x (by simp))]
      exact ih ks (fun y hy => h y (by simp [hy]))

lemma first_seen_keys_self_append {α κ : Type} [DecidableEq κ] (keyOf : α → κ) (l : List α) :
    first_seen_keys keyOf (l ++ l) = first_seen_keys keyOf l := by
  have : first_seen_keys keyOf (l ++ l)
      = l.foldl (fun ks x => if keyOf x ∈ ks then ks else ks ++ [keyOf x])
          (first_seen_keys keyOf l) := by
    simp [first_seen_keys, List.foldl_append]
  rw [this]
  exact foldl_keys_absorb keyOf l _
    (fun x hx => (mem_first_seen_keys keyOf l (keyOf x)).2 (List.mem_map_of_mem _ hx))

lemma upsert_map_mem {κ β : Type} [DecidableEq κ] (ks : List κ) (hnd : ks.Nodup) (f : κ → β)
    (k : κ) (g : β → β) (init : β) (hk : k ∈ ks) :
    upsert (ks.map (fun k0 => (k0, f k0))) k g init
      = ks.map (fun k0 => (k0, if k0 = k then g (f k0) else f k0)) := by
  induction ks with
  | nil => cases hk
  | cons k0 rest ih =>
      simp only [List.map_cons, upsert]
      by_cases h0 : k0 = k
      · rw [if_pos h0, if_pos h0]
        subst h0
        have hrest : k0 ∉ rest := (List.nodup_cons.1 hnd).1
        congr 1
        exact (List.map_congr_left (fun a ha => by
          rw [if_neg (by rintro rfl; exact hrest ha)])).symm
      · rw [if_neg h0, if_neg h0]
        rcases List.mem_cons.1 hk with rfl | hk0
        · exact absurd rfl h0
        · rw [ih (List.nodup_cons.1 hnd).2 hk0]

lemma upsert_map_not_mem {κ β : Type} [DecidableEq κ] (ks : List κ) (f : κ → β)
    (k : κ) (g : β → β) (init : β) (hk : k ∉ ks) :
    upsert (ks.map (fun k0 => (k0, f k0))) k g init
      = ks.map (fun k0 => (k0, f k0)) ++ [(k, init)] := by
  induction ks with
  | nil => rfl
  | cons k0 rest ih =>
      simp only [List.map_cons, upsert]
      rw [if_neg (by rintro rfl; exact hk (by simp)), ih (fun h => hk (by simp [h]))]
      simp

/-- The body of the accumulation loop of `_merge_and_average_scores`:
`doc_scores[doc.id]['scores'].append(score)`, recording the document payload
on first appearance.  (The defaultdict's transient
`{'document': None, 'scores': []}` entry exists only until the statements of
the same iteration fill it, so first appearance directly seeds
`(doc, [score])`.) -/
def merge_scores_step (acc : List (String × Doc × List ℚ)) (x : Doc × ℚ) :
    List (String × Doc × List ℚ) :=
  upsert acc x.1.id (fun dv => (dv.1, dv.2 ++ [x.2])) (x.1, [x.2])

/-- `np.mean` on an exact-rational model of floats. -/
def mean (l : List ℚ) : ℚ := l.sum / l.length

/-- Translation of `_merge_and_average_scores`: the double loop is a fold of
`merge_scores_step` over the flattened input, and the final comprehension maps
each accumulated entry to its first-seen document and the mean of its scores. -/
def merge_and_average_scores (multi : List (List (Doc × ℚ))) : List (Doc × ℚ) :=
  (multi.flatten.foldl merge_scores_step []).map (fun kv => (kv.2.1, mean kv.2.2))

/-- Specification-side: all scores collected for id `k` across the flattened
input, in occurrence order. -/
def scores_for (flat : List (Doc × ℚ)) (k : String) : List ℚ :=
  (flat.filter (fun x => x.1.id == k)).map (fun x => x.2)

/-- Specification-side: the first-seen document payload for id `k`. -/
def first_doc_for (flat : List (Doc × ℚ)) (k : String) : Doc :=
  (((flat.find? (fun x => x.1.id == k)).map (fun x => x.1)).getD default)


lemma scores_for_append_one (flat : List (Doc × ℚ)) (x : Doc × ℚ) (k : String) :
    scores_for (flat ++ [x]) k
      = scores_for flat k ++ (if x.1.id = k then [x.2] else []) := by
  simp only [scores_for, List.filter_append, List.map_append]
  congr 1
  by_cases h : x.1.id = k
  · simp [List.filter_cons, h]
  · simp [List.filter_cons, h]

lemma find_isSome_of_mem_ids (flat : List (Doc × ℚ)) (k : String)
    (h : k ∈ flat.map (fun x => x.1.id)) :
    (flat.find? (fun x => x.1.id == k)).isSome := by
  rw [List.find?_isSome]
  rcases List.mem_map.1 h with ⟨x, hx, rfl⟩
  exact ⟨x, hx, by simp⟩

lemma first_doc_for_append_one_mem (flat : List (Doc × ℚ)) (x : Doc × ℚ) (k : String)
    (h : k ∈ flat.map (fun y => y.1.id)) :
    first_doc_for (flat ++ [x]) k = first_doc_for flat k := by
  have hs := find_isSome_of_mem_ids flat k h
  simp only [first_doc_for, List.find?_append]
  rcases Option.isSome_iff_exists.1 hs with ⟨a, ha⟩
  simp [ha]

lemma first_doc_for_append_one_new (flat : List (Doc × ℚ)) (x : Doc × ℚ)
    (h : ¬ x.1.id ∈ flat.map (fun y => y.1.id)) :
    first_doc_for (flat ++ [x]) x.1.id = x.1 := by
  have hnone : flat.find? (fun y => y.1.id == x.1.id) = none := by
    rw [List.find?_eq_none]
    intro a ha hpa
    exact h (List.mem_map.2 ⟨a, ha, by simpa using hpa⟩)
  simp [first_doc_for, List.find?_append, hnone, List.find?]

lemma scores_for_nil_of_new (flat : List (Doc × ℚ)) (k : String)
    (h : ¬ k ∈ flat.map (fun y => y.1.id)) :
    scores_for flat k = [] := by
  simp only [scores_for, List.map_eq_nil_iff]
  rw [List.filter_eq_nil_iff]
  intro a ha hpa
  exact h (List.mem_map.2 ⟨a, ha, by simpa using hpa⟩)

/-- The accumulated dict of `_merge_and_average_scores` equals the direct
per-id computation over the flattened input. -/
lemma merge_scores_foldl_spec (flat : List (Doc × ℚ)) :
    flat.foldl merge_scores_step []
      = (first_seen_keys (fun x : Doc × ℚ => x.1.id) flat).map
          (fun k => (k, first_doc_for flat k, scores_for flat k)) := by
  induction flat using List.reverseRecOn with
  | nil => rfl
  | append_singleton l x ih =>
      have hnd := first_seen_keys_nodup (fun x : Doc × ℚ => x.1.id) l
      rw [List.foldl_append, List.foldl_cons, List.foldl_nil, ih, first_seen_keys_append_one]
      simp only [merge_scores_step]
      by_cases hx : x.1.id ∈ first_seen_keys (fun x : Doc × ℚ => x.1.id) l
      · rw [if_pos hx]
        have hup := upsert_map_mem (first_seen_keys (fun x : Doc × ℚ => x.1.id) l) hnd
          (fun k0 => (first_doc_for l k0, scores_for l k0)) x.1.id
          (fun dv => (dv.1, dv.2 ++ [x.2])) (x.1, [x.2]) hx
        simp only at hup
        rw [hup]
        apply List.map_congr_left
        intro k hk
        have hkmem : k ∈ l.map (fun y => y.1.id) := (mem_first_seen_keys _ l k).1 hk
        rw [first_doc_for_append_one_mem l x k hkmem, scores_for_append_one]
        by_cases hkx : k = x.1.id
        · subst hkx; rw [if_pos rfl, if_pos rfl]
        · rw [if_neg hkx, if_neg (fun h => hkx h.symm), List.append_nil]
      · rw [if_neg hx]
        have hup := upsert_map_not_mem (first_seen_keys (fun x : Doc × ℚ => x.1.id) l)
          (fun k0 => (first_doc_for l k0, scores_for l k0)) x.1.id
          (fun dv => (dv.1, dv.2 ++ [x.2])) (x.1, [x.2]) hx
        simp only at hup
        rw [hup, List.map_append]
        have hxmem : ¬ x.1.id ∈ l.map (fun y => y.1.id) :=
          fun h => hx ((mem_first_seen_keys _ l _).2 h)
        congr 1
        · apply List.map_congr_left
          intro k hk
          have hkmem : k ∈ l.map (fun y => y.1.id) := (mem_first_seen_keys _ l k).1 hk
          have hkx : x.1.id ≠ k := by rintro rfl; exact hx hk
          rw [first_doc_for_append_one_mem l x k hkmem, scores_for_append_one,
            if_neg hkx, List.append_nil]
        · simp only [List.map_cons, List.map_nil]
          rw [first_doc_for_append_one_new l x hxmem, scores_for_append_one,
            scores_for_nil_of_new l _ hxmem, if_pos rfl, List.nil_append]

lemma first_doc_for_id (flat : List (Doc × ℚ)) (k : String)
    (h : k ∈ flat.map (fun x => x.1.id)) : (first_doc_for flat k).id = k := by
  rcases Option.isSome_iff_exists.1 (find_isSome_of_mem_ids flat k h) with ⟨a, ha⟩
  have hp := List.find?_some ha
  simp only [first_doc_for, ha, Option.map_some, Option.getD_some]
  simpa using hp

/-- C3: for scored multi-query input the flat merge returns exactly one entry
per distinct document id — the first-seen payload paired with the arithmetic
mean of every score collected for that id across all sub-lists — in order of
first appearance; merging `[(A, 0.8), (B, 0.6)]` with `[(A, 0.4)]` yields `A`
with averaged score `0.6` followed by `B` with `0.6`. -/
theorem merge_and_average_scores_spec (multi : List (List (Doc × ℚ))) :
    merge_and_average_scores multi
        = (first_seen_keys (fun x : Doc × ℚ => x.1.id) multi.flatten).map
            (fun k => (first_doc_for multi.flatten k, mean (scores_for multi.flatten k)))
    ∧ ((merge_and_average_scores multi).map (fun x => x.1.id))
        = first_seen_keys (fun x : Doc × ℚ => x.1.id) multi.flatten
    ∧ ((merge_and_average_scores multi).map (fun x => x.1.id)).Nodup
    ∧ merge_and_average_scores
          [[(⟨"A", "alpha"⟩, 4/5), (⟨"B", "beta"⟩, 3/5)], [(⟨"A", "alpha"⟩, 2/5)]]
        = [(⟨"A", "alpha"⟩, 3/5), (⟨"B", "beta"⟩, 3/5)] := by
  have hmain : merge_and_average_scores multi
      = (first_seen_keys (fun x : Doc × ℚ => x.1.id) multi.flatten).map
          (fun k => (first_doc_for multi.flatten k, mean (scores_for multi.flatten k))) := by
    rw [merge_and_average_scores, merge_scores_foldl_spec, List.map_map]
    rfl
  have hids : ((merge_and_average_scores multi).map (fun x => x.1.id))
      = first_seen_keys (fun x : Doc × ℚ => x.1.id) multi.flatten := by
    rw [hmain, List.map_map]
    have : ∀ k ∈ first_seen_keys (fun x : Doc × ℚ => x.1.id) multi.flatten,
        ((fun x : Doc × ℚ => x.1.id) ∘ fun k =>
          (first_doc_for multi.flatten k, mean (scores_for multi.flatten k))) k = k := by
      intro k hk
      exact first_doc_for_id multi.flatten k ((mem_first_seen_keys _ _ k).1 hk)
    rw [List.map_congr_left this]
    exact List.map_id' _
  refine ⟨hmain, hids, ?_, ?_⟩
  · rw [hids]; exact first_seen_keys_nodup _ _
  · simp only [merge_and_average_scores, List.flatten, List.foldl,
      merge_scores_step, upsert, mean]
    norm_num

lemma mean_append_self (s : List ℚ) : mean (s ++ s) = mean s := by
  simp only [mean, List.sum_append, List.length_append]
  rw [show s.sum + s.sum = 2 * s.sum by ring]
  rw [show ((s.length + s.length : ℕ) : ℚ) = 2 * (s.length : ℚ) by push_cast; ring]
  rw [mul_div_mul_left _ _ (two_ne_zero)]

/-- C8: idempotence of the scored flat merge — merging a duplicated input
`[L, L]` yields the same documents, in the same order, with the same averaged
scores as merging `[L]`, since the mean of `[s, s]` equals `s`. -/
theorem merge_and_average_scores_idempotent (L : List (Doc × ℚ)) :
    merge_and_average_scores [L, L] = merge_and_average_scores [L] := by
  have hflat2 : ([L, L] : List (List (Doc × ℚ))).flatten = L ++ L := by simp
  have hflat1 : ([L] : List (List (Doc × ℚ))).flatten = L := by simp
  rw [merge_and_average_scores, merge_and_average_scores,
    merge_scores_foldl_spec, merge_scores_foldl_spec, hflat2, hflat1,
    first_seen_keys_self_append, List.map_map, List.map_map]
  apply List.map_congr_left
  intro k hk
  have h1 : first_doc_for (L ++ L) k = first_doc_for L k := by
    simp [first_doc_for, List.find?_append, Option.or_self]
  have h2 : scores_for (L ++ L) k = scores_for L k ++ scores_for L k := by
    simp [scores_for, List.filter_append]
  simp only [Function.comp, h1, h2, mean_append_self]

/-- The body of the loop of `_merge_unique_documents`: append the document and
mark its id seen unless the id was already seen.  The Python `set` is modelled
as a list queried only through membership. -/
def merge_unique_step (acc : List Doc × List String) (doc : Doc) : List Doc × List String :=
  if doc.id ∈ acc.2 then acc else (acc.1 ++ [doc], acc.2 ++ [doc.id])

/-- Translation of `_merge_unique_documents`: the double loop is a fold of
`merge_unique_step` over the flattened input, starting from an empty output
and an empty seen-set. -/
def merge_unique_documents (multi : List (List Doc)) : List Doc :=
  (multi.flatten.foldl merge_unique_step ([], [])).1

/-- Specification-side recursion: drop documents whose id was seen, keep the
first occurrence of each new id. -/
def dedup_by_id (seen : List String) : List Doc → List Doc
  | [] => []
  | d :: ds => if d.id ∈ seen then dedup_by_id seen ds
               else d :: dedup_by_id (seen ++ [d.id]) ds

lemma foldl_merge_unique (flat : List Doc) :
    ∀ out seen, flat.foldl merge_unique_step (out, seen)
      = (out ++ dedup_by_id seen flat,
         seen ++ (dedup_by_id seen flat).map (fun d => d.id)) := by
  induction flat with
  | nil => intro out seen; simp [dedup_by_id]
  | cons d ds ih =>
      intro out seen
      simp only [List.foldl_cons, merge_unique_step, dedup_by_id]
      by_cases h : d.id ∈ seen
      · rw [if_pos h, if_pos h, ih]
      · rw [if_neg h, if_neg h, ih]
        simp

lemma dedup_by_id_sublist (flat : List Doc) :
    ∀ seen, (dedup_by_id seen flat).Sublist flat := by
  induction flat with
  | nil => intro seen; simp [dedup_by_id]
  | cons d ds ih =>
      intro seen
      simp only [dedup_by_id]
      split_ifs
      · exact (ih seen).trans (List.sublist_cons_self d ds)
      · exact (ih (seen ++ [d.id])).cons₂ d

lemma dedup_by_id_not_seen (flat : List Doc) :
    ∀ seen, ∀ d ∈ dedup_by_id seen flat, d.id ∉ seen := by
  induction flat with
  | nil => intro seen d hd; cases hd
  | cons x xs ih =>
      intro seen d hd
      simp only [dedup_by_id] at hd
      split_ifs at hd with h
      · exact ih seen d hd
      · rcases List.mem_cons.1 hd with rfl | hd0
        · exact h
        · intro hmem
          exact ih (seen ++ [x.id]) d hd0 (List.mem_append_left _ hmem)

lemma dedup_by_id_ids_nodup (flat : List Doc) :
    ∀ seen, ((dedup_by_id seen flat).map (fun d => d.id)).Nodup := by
  induction flat with
  | nil => intro seen; simp [dedup_by_id]
  | cons x xs ih =>
      intro seen
      simp only [dedup_by_id]
      split_ifs with h
      · exact ih seen
      · simp only [List.map_cons, List.nodup_cons]
        refine ⟨?_, ih (seen ++ [x.id])⟩
        intro hmem
        rcases List.mem_map.1 hmem with ⟨d, hd, hid⟩
        exact dedup_by_id_not_seen xs (seen ++ [x.id]) d hd
          (List.mem_append_right _ (by simp [hid]))

lemma dedup_by_id_covers (flat : List Doc) :
    ∀ seen, ∀ d ∈ flat, d.id ∈ seen ∨ d.id ∈ (dedup_by_id seen flat).map (fun d => d.id) := by
  induction flat with
  | nil => intro seen d hd; cases hd
  | cons x xs ih =>
      intro seen d hd
      simp only [dedup_by_id]
      rcases List.mem_cons.1 hd with rfl | hd0
      · by_cases h : d.id ∈ seen
        · exact Or.inl h
        · rw [if_neg h]
          right; simp
      · by_cases h : x.id ∈ seen
        · rw [if_pos h]; exact ih seen d hd0
        · rw [if_neg h]
          rcases ih (seen ++ [x.id]) d hd0 with hs | hs
          · rcases List.mem_append.1 hs with hs0 | hs0
            · exact Or.inl hs0
            · right; simp at hs0; simp [hs0]
          · right; simp only [List.map_cons, List.mem_cons]; exact Or.inr hs

lemma dedup_by_id_first_occurrence (flat : List Doc) :
    ∀ seen, ∀ d ∈ dedup_by_id seen flat,
      flat.find? (fun x => x.id == d.id) = some d := by
  induction flat with
  | nil => intro seen d hd; cases hd
  | cons x xs ih =>
      intro seen d hd
      simp only [dedup_by_id] at hd
      split_ifs at hd with h
      · have hdid := dedup_by_id_not_seen xs seen d hd
        have hne : (x.id == d.id) = false := by
          simp only [beq_eq_false_iff_ne, ne_eq]
          rintro heq
          exact hdid (heq ▸ h)
        rw [List.find?_cons, hne]
        exact ih seen d hd
      · rcases List.mem_cons.1 hd with rfl | hd0
        · simp [List.find?_cons]
        · have hdid := dedup_by_id_not_seen xs (seen ++ [x.id]) d hd0
          have hne : (x.id == d.id) = false := by
            simp only [beq_eq_false_iff_ne, ne_eq]
            rintro heq
            exact hdid (List.mem_append_right _ (by simp [heq]))
          rw [List.find?_cons, hne]
          exact ih (seen ++ [x.id]) d hd0

def docA : Doc := ⟨"A", "alpha"⟩

def docB : Doc := ⟨"B", "beta"⟩

def docC : Doc := ⟨"C", "gamma"⟩

/-- C6: for unscored multi-query input the flat merge keeps the documents in
first-seen order (the output is a sublist of the flattened input formed by the
first occurrence of each id), only true duplicates by id are dropped (every id
of the input appears in the output), and the output has no duplicate ids;
merging `[A, B]` with `[B, C]` yields `[A, B, C]`. -/
theorem merge_unique_documents_spec (multi : List (List Doc)) :
    (merge_unique_documents multi).Sublist multi.flatten
    ∧ ((merge_unique_documents multi).map (fun d => d.id)).Nodup
    ∧ (∀ d ∈ multi.flatten, d.id ∈ (merge_unique_documents multi).map (fun d => d.id))
    ∧ (∀ d ∈ merge_unique_documents multi,
        multi.flatten.find? (fun x => x.id == d.id) = some d)
    ∧ merge_unique_documents [[docA, docB], [docB, docC]] = [docA, docB, docC] := by
  have hdef : merge_unique_documents multi = dedup_by_id [] multi.flatten := by
    rw [merge_unique_documents, foldl_merge_unique multi.flatten [] []]
    simp
  refine ⟨?_, ?_, ?_, ?_, ?_⟩
  · rw [hdef]; exact dedup_by_id_sublist multi.flatten []
  · rw [hdef]; exact dedup_by_id_ids_nodup multi.flatten []
  · intro d hd
    rw [hdef]
    rcases dedup_by_id_covers multi.flatten [] d hd with h | h
    · cases h
    · exact h
  · intro d hd
    exact dedup_by_id_first_occurrence multi.flatten [] d (hdef ▸ hd)
  · decide

/-- Witness for C6: in the merged `[[A, B], [B, C]]` example the surviving `B`
is the first occurrence of id `"B"` in the flattened input. -/
theorem merge_unique_documents_spec_witness :
    ([[docA, docB], [docB, docC]] : List (List Doc)).flatten.find?
        (fun x => x.id == docB.id) = some docB :=
  (merge_unique_documents_spec [[docA, docB], [docB, docC]]).2.2.2.1 docB
    (by decide)

/-! ## Group keys and the enrichment pipeline
(`_get_metadata_key_value_sorted`, `enriched_context_search`,
context_enricher.py lines 115-240; `ChunkKey`, constants.py lines 24-42) -/

/-- A metadata value: the splitter writes strings and integers. -/
inductive MetaVal where
  | intVal (n : ℤ)
  | strVal (s : String)
deriving DecidableEq

/-- `ChunkKey.FILE_NAME` -/
def FILE_NAME : String := "file_name"

/-- `ChunkKey.HEADERS_CHUNK_ID` -/
def HEADERS_CHUNK_ID : String := "headers_chunk_id"

/-- `ChunkKey.HEADERS_CHUNKS_TOTAL` -/
def HEADERS_CHUNKS_TOTAL : String := "headers_comb_total"

/-- `ChunkKey.CHUNK_OVERLAP` -/
def CHUNK_OVERLAP : String := "chunk_overlap"

/-- `ChunkKey.EXTRA_CHUNKS_METADATA` -/
def EXTRA_CHUNKS_METADATA : List String :=
  [FILE_NAME, HEADERS_CHUNK_ID, HEADERS_CHUNKS_TOTAL, CHUNK_OVERLAP]

instance : DecidableRel (fun a b : String × MetaVal => a.1 ≤ b.1) :=
  fun a b => inferInstanceAs (Decidable (a.1 ≤ b.1))

/-- Translation of `_get_metadata_key_value_sorted`: drop the excluded keys
and sort the remaining `(key, value)` pairs.  Python sorts the pair tuples
lexicographically, but a metadata dict never holds two equal keys, so the
comparison never reaches the values and sorting by key is faithful;
`insertionSort` models Python's stable `sorted`. -/
def get_metadata_key_value_sorted (metadata : List (String × MetaVal))
    (exclude_keys : List String := EXTRA_CHUNKS_METADATA) : List (String × MetaVal) :=
  List.insertionSort (fun a b => a.1 ≤ b.1)
    (metadata.filter (fun kv => ¬ kv.1 ∈ exclude_keys))

/-- C10: the group key used to bucket retrieved chunks is the list of
`(key, value)` metadata pairs sorted by key with exactly `file_name`,
`headers_chunk_id`, `headers_comb_total` and `chunk_overlap` removed; in
particular the file identifier never enters the group key, so chunks from
different files with coinciding remaining metadata share a group key. -/
theorem group_key_excludes_file_name :
    EXTRA_CHUNKS_METADATA
        = ["file_name", "headers_chunk_id", "headers_comb_total", "chunk_overlap"]
    ∧ (∀ md : List (String × MetaVal),
        (get_metadata_key_value_sorted md).Perm
          (md.filter (fun kv => ¬ kv.1 ∈
            (["file_name", "headers_chunk_id", "headers_comb_total",
              "chunk_overlap"] : List String))))
    ∧ (∀ md : List (String × MetaVal),
        (get_metadata_key_value_sorted md).Sorted (fun a b => a.1 ≤ b.1))
    ∧ (∀ md : List (String × MetaVal), ∀ kv ∈ get_metadata_key_value_sorted md,
        ¬ kv.1 ∈ EXTRA_CHUNKS_METADATA)
    ∧ (∀ (md : List (String × MetaVal)) (v1 v2 : MetaVal),
        get_metadata_key_value_sorted ((FILE_NAME, v1) :: md)
          = get_metadata_key_value_sorted ((FILE_NAME, v2) :: md)) := by
  refine ⟨rfl, ?_, ?_, ?_, ?_⟩
  · intro md
    exact List.perm_insertionSort _ _
  · intro md
    exact @List.sorted_insertionSort (String × MetaVal) (fun a b => a.1 ≤ b.1) _
      ⟨fun a b => le_total a.1 b.1⟩ ⟨fun a b c h1 h2 => le_trans h1 h2⟩ _
  · intro md kv hkv
    have hmem : kv ∈ (md.filter (fun kv => ¬ kv.1 ∈ EXTRA_CHUNKS_METADATA)) :=
      (List.mem_insertionSort _).1 hkv
    have := (List.mem_filter.1 hmem).2
    simpa using this
  · intro md v1 v2
    simp [get_metadata_key_value_sorted, List.filter_cons, EXTRA_CHUNKS_METADATA,
      FILE_NAME, HEADERS_CHUNK_ID, HEADERS_CHUNKS_TOTAL, CHUNK_OVERLAP]

/-- Witness for C10: two chunks that differ only in their `file_name` value
yield the same group key, here `[("group", 1)]`. -/
theorem group_key_excludes_file_name_witness :
    get_metadata_key_value_sorted [(FILE_NAME, MetaVal.strVal "a"), ("group", MetaVal.intVal 1)]
      = get_metadata_key_value_sorted
          [(FILE_NAME, MetaVal.strVal "b"), ("group", MetaVal.intVal 1)] :=
  group_key_excludes_file_name.2.2.2.2 [("group", MetaVal.intVal 1)]
    (MetaVal.strVal "a") (MetaVal.strVal "b")

/-- A group key: the sorted, filtered metadata pairs. -/
abbrev MetaKey := List (String × MetaVal)

/-- Integer metadata lookup, `metadata.get(key)`: the splitter writes the
chunk id and total as integers, and a missing key yields `none`. -/
def getInt (metadata : List (String × MetaVal)) (k : String) : Option ℤ :=
  match metadata.lookup k with
  | some (MetaVal.intVal n) => some n
  | _ => none

/-- One group's accumulated window bounds, `processed_results_dict[key]`. -/
structure GroupData where
  min_id : ℤ
  max_id : ℤ
  total : ℤ
deriving DecidableEq

/-- The per-document body of `enriched_context_search`'s inner loop: when both
`headers_chunk_id` and `headers_comb_total` are present, fold the chunk id into
the group's min/max and overwrite its total.  (The defaultdict seeds
`float('inf')` / `float('-inf')` bounds, but those survive only until the
`min`/`max` updates of the same iteration, so a first appearance directly
yields `(cid, cid, tot)`; a document missing either key never touches the
dict.) -/
def enrich_doc_step (acc : List (MetaKey × GroupData)) (metadata : List (String × MetaVal)) :
    List (MetaKey × GroupData) :=
  match getInt metadata HEADERS_CHUNK_ID, getInt metadata HEADERS_CHUNKS_TOTAL with
  | some cid, some tot =>
      upsert acc (get_metadata_key_value_sorted metadata)
        (fun gd => ⟨min gd.min_id cid, max gd.max_id cid, tot⟩) ⟨cid, cid, tot⟩
  | _, _ => acc

/-- The per-group enrichment of the second inner loop: compute the window with
`_get_chunk_limits` (the caller passes the group's stored total directly as
`md_total`) and stitch the chunks returned by the metadata-filtered store
fetch, abstracted as `fetch`. -/
def enrich_group (fetch : MetaKey → ℤ → ℤ → List WindowDoc) (ws : ℤ)
    (kv : MetaKey × GroupData) : List Char :=
  merge_overlap_chunks
    (fetch kv.1 (get_chunk_limits kv.2.min_id kv.2.max_id kv.2.total ws).1
      (get_chunk_limits kv.2.min_id kv.2.max_id kv.2.total ws).2)

/-- The outer query loop of `enriched_context_search` (multi-query,
`merge_results=False` path): `processed_results_dict` is threaded through
every query, and each query's output is built from the whole dict. -/
def enriched_context_search_go (fetch : MetaKey → ℤ → ℤ → List WindowDoc) (ws : ℤ)
    (acc : List (MetaKey × GroupData)) :
    List (List (List (String × MetaVal))) → List (List (List Char))
  | [] => []
  | q :: qs =>
      let acc2 := q.foldl enrich_doc_step acc
      acc2.map (enrich_group fetch ws) :: enriched_context_search_go fetch ws acc2 qs

/-- Translation of `enriched_context_search` for a list of queries with
`merge_results=False`: documents are represented by their metadata (grouping
uses nothing else), and the store is the abstract `fetch`. -/
def enriched_context_search (fetch : MetaKey → ℤ → ℤ → List WindowDoc) (ws : ℤ)
    (search_results : List (List (List (String × MetaVal)))) : List (List (List Char)) :=
  enriched_context_search_go fetch ws [] search_results

lemma enriched_go_length (fetch : MetaKey → ℤ → ℤ → List WindowDoc) (ws : ℤ) :
    ∀ (rs : List (List (List (String × MetaVal)))) acc,
      (enriched_context_search_go fetch ws acc rs).length = rs.length := by
  intro rs
  induction rs with
  | nil => intro acc; rfl
  | cons q qs ih => intro acc; simp [enriched_context_search_go, ih]

lemma enriched_go_getD (fetch : MetaKey → ℤ → ℤ → List WindowDoc) (ws : ℤ) :
    ∀ (rs : List (List (List (String × MetaVal)))) acc i, i < rs.length →
      (enriched_context_search_go fetch ws acc rs).getD i []
        = ((rs.take (i + 1)).flatten.foldl enrich_doc_step acc).map
            (enrich_group fetch ws) := by
  intro rs
  induction rs with
  | nil => intro acc i h; cases h
  | cons q qs ih =>
      intro acc i h
      match i with
      | 0 => simp [enriched_context_search_go]
      | Nat.succ j =>
          have hj : j < qs.length := by simpa using h
          simp only [enriched_context_search_go, List.getD, List.get?_eq_getElem?]
          have := ih (q.foldl enrich_doc_step acc) j hj
          simp only [List.getD, List.get?_eq_getElem?] at this
          simpa [List.take_succ_cons, List.foldl_append] using this

lemma upsert_keys_sub {κ β : Type} [DecidableEq κ] (l : List (κ × β)) (k0 : κ)
    (f : β → β) (init : β) (k : κ) (hk : k ∈ l.map Prod.fst) :
    k ∈ (upsert l k0 f init).map Prod.fst := by
  induction l with
  | nil => cases hk
  | cons kv rest ih =>
      rw [List.map_cons, List.mem_cons] at hk
      simp only [upsert]
      split_ifs with h
      · rcases hk with h1 | h1
        · simp [h1]
        · rw [List.map_cons, List.mem_cons]; right; exact h1
      · rcases hk with h1 | h1
        · simp [h1]
        · rw [List.map_cons, List.mem_cons]; right; exact ih h1

lemma enrich_doc_step_keys_sub (acc : List (MetaKey × GroupData))
    (metadata : List (String × MetaVal)) (k : MetaKey) (hk : k ∈ acc.map Prod.fst) :
    k ∈ (enrich_doc_step acc metadata).map Prod.fst := by
  rw [enrich_doc_step]
  rcases getInt metadata HEADERS_CHUNK_ID with _ | cid
  · exact hk
  · rcases getInt metadata HEADERS_CHUNKS_TOTAL with _ | tot
    · exact hk
    · exact upsert_keys_sub acc _ _ _ k hk

lemma enrich_foldl_keys_sub (docs : List (List (String × MetaVal))) :
    ∀ (acc : List (MetaKey × GroupData)) (k : MetaKey), k ∈ acc.map Prod.fst →
      k ∈ (docs.foldl enrich_doc_step acc).map Prod.fst := by
  induction docs with
  | nil => intro acc k hk; exact hk
  | cons d ds ih =>
      intro acc k hk
      exact ih (enrich_doc_step acc d) k (enrich_doc_step_keys_sub acc d k hk)

/-- C9: in `enriched_context_search` over a list of queries with
`merge_results=False`, the per-group accumulator dict is created once and
shared across all queries: the output list for the `i`-th query holds one
enriched context string per distinct group accumulated from queries
`0 .. i`, so groups contributed by earlier queries reappear in every later
query's output. -/
theorem enriched_context_search_shares_accumulator
    (fetch : MetaKey → ℤ → ℤ → List WindowDoc) (ws : ℤ)
    (search_results : List (List (List (String × MetaVal)))) :
    (enriched_context_search fetch ws search_results).length = search_results.length
    ∧ (∀ i, i < search_results.length →
        (enriched_context_search fetch ws search_results).getD i []
          = ((search_results.take (i + 1)).flatten.foldl enrich_doc_step []).map
              (enrich_group fetch ws))
    ∧ (∀ i j, i ≤ j →
        ∀ k ∈ ((search_results.take (i + 1)).flatten.foldl enrich_doc_step []).map Prod.fst,
          k ∈ ((search_results.take (j + 1)).flatten.foldl enrich_doc_step []).map Prod.fst) := by
  refine ⟨enriched_go_length fetch ws search_results [], ?_, ?_⟩
  · intro i h
    exact enriched_go_getD fetch ws search_results [] i h
  · intro i j hij k hk
    have hsplit : search_results.take (j + 1)
        = search_results.take (i + 1) ++ (search_results.drop (i + 1)).take (j - i) := by
      rw [← List.take_add]
      congr 1
      omega
    rw [hsplit, List.flatten_append, List.foldl_append]
    exact enrich_foldl_keys_sub _ _ k hk

/-- Witness for C9: two queries contributing one group each; the second
query's output holds two enriched strings — the first query's group
reappears. -/
theorem enriched_context_search_shares_accumulator_witness :
    (enriched_context_search (fun _ _ _ => [⟨0, 0, ['g']⟩]) 1
        [[[("group", MetaVal.intVal 1), (HEADERS_CHUNK_ID, MetaVal.intVal 0),
           (HEADERS_CHUNKS_TOTAL, MetaVal.intVal 1)]],
         [[("group", MetaVal.intVal 2), (HEADERS_CHUNK_ID, MetaVal.intVal 0),
           (HEADERS_CHUNKS_TOTAL, MetaVal.intVal 1)]]]).getD 1 []
      = [['g'], ['g']] := by
  have h := (enriched_context_search_shares_accumulator (fun _ _ _ => [⟨0, 0, ['g']⟩]) 1
    [[[("group", MetaVal.intVal 1), (HEADERS_CHUNK_ID, MetaVal.intVal 0),
       (HEADERS_CHUNKS_TOTAL, MetaVal.intVal 1)]],
     [[("group", MetaVal.intVal 2), (HEADERS_CHUNK_ID, MetaVal.intVal 0),
       (HEADERS_CHUNKS_TOTAL, MetaVal.intVal 1)]]]).2.1 1 (by decide)
  rw [h]
  decide

/-! ## HierarchicalResultMerger: `_merge_search_results`
(hierarchical.py, lines 362-451) -/

/-- A per-query column occurrence: its id, content and relevance score. -/
structure ColEntry where
  id : String
  content : String
  score : ℚ
deriving DecidableEq

/-- A per-query table occurrence with its per-query columns. -/
structure TableEntry where
  id : String
  content : String
  score : ℚ
  columns : List ColEntry
deriving DecidableEq

/-- An accumulated column: content and collected score list. -/
structure ColAcc where
  content : String
  scores : List ℚ
deriving DecidableEq

/-- An accumulated table: content, collected score list and nested column
dict. -/
structure TableAcc where
  content : String
  scores : List ℚ
  columns : List (String × ColAcc)
deriving DecidableEq

/-- Python dict assignment `d[k] = v`: replace in place, else append. -/
def assocSet {κ β : Type} [DecidableEq κ] (l : List (κ × β)) (k : κ) (v : β) :
    List (κ × β) :=
  upsert l k (fun _ => v) v

/-- The dict comprehension seeding a new table's column dict: each column is
assigned `{content, [score]}`; a repeated column id within the seeding
occurrence therefore overwrites the earlier one. -/
def seed_columns (cols : List ColEntry) : List (String × ColAcc) :=
  cols.foldl (fun m c => assocSet m c.id ⟨c.content, [c.score]⟩) []

/-- The column loop on a subsequent table occurrence: a new column id seeds
`{content, [score]}`, an existing one appends its score. -/
def merge_columns_step (m : List (String × ColAcc)) (c : ColEntry) : List (String × ColAcc) :=
  upsert m c.id (fun ca => ⟨ca.content, ca.scores ++ [c.score]⟩) ⟨c.content, [c.score]⟩

/-- The table loop of `_merge_search_results`: a new table id seeds content,
`[score]` and the seeded column dict; an existing one appends its score and
merges its columns into the nested dict. -/
def merge_tables_step (acc : List (String × TableAcc)) (t : TableEntry) :
    List (String × TableAcc) :=
  upsert acc t.id
    (fun ta => ⟨ta.content, ta.scores ++ [t.score],
      t.columns.foldl merge_columns_step ta.columns⟩)
    ⟨t.content, [t.score], seed_columns t.columns⟩

/-- An output column: content and averaged score. -/
structure ColOut where
  content : String
  score : ℚ
deriving DecidableEq

/-- An output table: content, averaged score and sorted output columns. -/
structure TableOut where
  content : String
  score : ℚ
  columns : List ColOut
deriving DecidableEq

instance : DecidableRel (fun a b : ColOut => b.score ≤ a.score) :=
  fun a b => inferInstanceAs (Decidable (b.score ≤ a.score))

instance : DecidableRel (fun a b : TableOut => b.score ≤ a.score) :=
  fun a b => inferInstanceAs (Decidable (b.score ≤ a.score))

/-- Translation of `_merge_search_results`: accumulate the nested dicts over
the flattened input, drop tables whose accumulated column dict is empty (the
summary entry of an accumulated table is always truthy, so the guard reduces
to the columns check), average, and sort both levels descending by score with
Python's stable `sorted` (`insertionSort`). -/
def merge_search_results (multi : List (List TableEntry)) : List TableOut :=
  let acc := multi.flatten.foldl merge_tables_step []
  let results := acc.filterMap (fun kv =>
    if kv.2.columns = [] then none
    else some ⟨kv.2.content, mean kv.2.scores,
      List.insertionSort (fun a b : ColOut => b.score ≤ a.score)
        (kv.2.columns.map (fun ckv => ⟨ckv.2.content, mean ckv.2.scores⟩))⟩)
  List.insertionSort (fun a b : TableOut => b.score ≤ a.score) results

/-- Specification-side: the occurrences of parent id `pid` across the
flattened input, in order. -/
def occurrences (flat : List TableEntry) (pid : String) : List TableEntry :=
  flat.filter (fun t => t.id == pid)

/-- Specification-side: every score of parent `pid`, one per occurrence. -/
def parent_scores (flat : List TableEntry) (pid : String) : List ℚ :=
  (occurrences flat pid).map (fun t => t.score)

/-- Specification-side: all column occurrences under parent `pid`, in order. -/
def all_columns (flat : List TableEntry) (pid : String) : List ColEntry :=
  (occurrences flat pid).flatMap (fun t => t.columns)

/-- Specification-side: every score of child `cid` under parent `pid`. -/
def child_scores (flat : List TableEntry) (pid cid : String) : List ℚ :=
  ((all_columns flat pid).filter (fun c => c.id == cid)).map (fun c => c.score)

/-- Specification-side: the first-seen content of parent `pid`. -/
def first_parent_content (flat : List TableEntry) (pid : String) : String :=
  ((flat.find? (fun t => t.id == pid)).map (fun t => t.content)).getD ""

/-- Specification-side: the first-seen content of child `cid` under `pid`. -/
def first_child_content (flat : List TableEntry) (pid cid : String) : String :=
  (((all_columns flat pid).find? (fun c => c.id == cid)).map (fun c => c.content)).getD ""

/-- Specification-side: parent ids in first-seen order. -/
def parent_ids (flat : List TableEntry) : List String :=
  first_seen_keys (fun t : TableEntry => t.id) flat

/-- Specification-side: child ids of `pid` in first-seen order. -/
def child_ids (flat : List TableEntry) (pid : String) : List String :=
  first_seen_keys (fun c : ColEntry => c.id) (all_columns flat pid)

/-- Specification-side merged result, written from the spec's words: one
entry per first-seen parent id having at least one child, carrying the
first-seen contents and per-id score means, both levels stably sorted
descending by averaged score. -/
def merged_hierarchical_spec (flat : List TableEntry) : List TableOut :=
  List.insertionSort (fun a b : TableOut => b.score ≤ a.score)
    ((parent_ids flat).filterMap (fun pid =>
      if child_ids flat pid = [] then none
      else some ⟨first_parent_content flat pid, mean (parent_scores flat pid),
        List.insertionSort (fun a b : ColOut => b.score ≤ a.score)
          ((child_ids flat pid).map (fun cid =>
            ⟨first_child_content flat pid cid, mean (child_scores flat pid cid)⟩))⟩))

/-- Specification-side: scores of column id `cid` within a column list. -/
def col_scores_of (X : List ColEntry) (cid : String) : List ℚ :=
  (X.filter (fun c => c.id == cid)).map (fun c => c.score)

/-- Specification-side: first-seen content of column id `cid` in a column
list. -/
def first_col_content_of (X : List ColEntry) (cid : String) : String :=
  ((X.find? (fun c => c.id == cid)).map (fun c => c.content)).getD ""

/-- The direct per-id form of an accumulated column dict built from the
column occurrences `X`. -/
def col_acc_map (X : List ColEntry) : List (String × ColAcc) :=
  (first_seen_keys (fun c : ColEntry => c.id) X).map
    (fun cid => (cid, ⟨first_col_content_of X cid, col_scores_of X cid⟩))

lemma col_scores_append_one (X : List ColEntry) (c : ColEntry) (cid : String) :
    col_scores_of (X ++ [c]) cid
      = col_scores_of X cid ++ (if c.id = cid then [c.score] else []) := by
  simp only [col_scores_of, List.filter_append, List.map_append]
  congr 1
  by_cases h : c.id = cid
  · simp [List.filter_cons, h]
  · simp [List.filter_cons, h]

lemma col_find_isSome_of_mem (X : List ColEntry) (cid : String)
    (h : cid ∈ X.map (fun c => c.id)) :
    (X.find? (fun c => c.id == cid)).isSome := by
  rw [List.find?_isSome]
  rcases List.mem_map.1 h with ⟨c, hc, rfl⟩
  exact ⟨c, hc, by simp⟩

lemma first_col_content_append_one_mem (X : List ColEntry) (c : ColEntry) (cid : String)
    (h : cid ∈ X.map (fun y => y.id)) :
    first_col_content_of (X ++ [c]) cid = first_col_content_of X cid := by
  have hs := col_find_isSome_of_mem X cid h
  simp only [first_col_content_of, List.find?_append]
  rcases Option.isSome_iff_exists.1 hs with ⟨a, ha⟩
  simp [ha]

lemma first_col_content_append_one_new (X : List ColEntry) (c : ColEntry)
    (h : ¬ c.id ∈ X.map (fun y => y.id)) :
    first_col_content_of (X ++ [c]) c.id = c.content := by
  have hnone : X.find? (fun y => y.id == c.id) = none := by
    rw [List.find?_eq_none]
    intro a ha hpa
    exact h (List.mem_map.2 ⟨a, ha, by simpa using hpa⟩)
  simp [first_col_content_of, List.find?_append, hnone, List.find?]

lemma col_scores_nil_of_new (X : List ColEntry) (cid : String)
    (h : ¬ cid ∈ X.map (fun y => y.id)) :
    col_scores_of X cid = [] := by
  simp only [col_scores_of, List.map_eq_nil_iff]
  rw [List.filter_eq_nil_iff]
  intro a ha hpa
  exact h (List.mem_map.2 ⟨a, ha, by simpa using hpa⟩)

lemma merge_columns_step_acc_map (X : List ColEntry) (c : ColEntry) :
    merge_columns_step (col_acc_map X) c = col_acc_map (X ++ [c]) := by
  have hnd := first_seen_keys_nodup (fun c : ColEntry => c.id) X
  rw [col_acc_map, col_acc_map, first_seen_keys_append_one]
  simp only [merge_columns_step]
  by_cases hx : c.id ∈ first_seen_keys (fun c : ColEntry => c.id) X
  · rw [if_pos hx]
    have hup := upsert_map_mem (first_seen_keys (fun c : ColEntry => c.id) X) hnd
      (fun cid => (⟨first_col_content_of X cid, col_scores_of X cid⟩ : ColAcc)) c.id
      (fun ca => ⟨ca.content, ca.scores ++ [c.score]⟩) ⟨c.content, [c.score]⟩ hx
    simp only at hup
    rw [hup]
    apply List.map_congr_left
    intro cid hcid
    have hmem : cid ∈ X.map (fun y => y.id) := (mem_first_seen_keys _ X cid).1 hcid
    rw [first_col_content_append_one_mem X c cid hmem, col_scores_append_one]
    by_cases hcx : cid = c.id
    · subst hcx; rw [if_pos rfl, if_pos rfl]
    · rw [if_neg hcx, if_neg (fun h => hcx h.symm), List.append_nil]
  · rw [if_neg hx]
    have hup := upsert_map_not_mem (first_seen_keys (fun c : ColEntry => c.id) X)
      (fun cid => (⟨first_col_content_of X cid, col_scores_of X cid⟩ : ColAcc)) c.id
      (fun ca => ⟨ca.content, ca.scores ++ [c.score]⟩) ⟨c.content, [c.score]⟩ hx
    simp only at hup
    rw [hup, List.map_append]
    have hxmem : ¬ c.id ∈ X.map (fun y => y.id) :=
      fun h => hx ((mem_first_seen_keys _ X _).2 h)
    congr 1
    · apply List.map_congr_left
      intro cid hcid
      have hmem : cid ∈ X.map (fun y => y.id) := (mem_first_seen_keys _ X cid).1 hcid
      have hcx : c.id ≠ cid := by rintro rfl; exact hx hcid
      rw [first_col_content_append_one_mem X c cid hmem, col_scores_append_one,
        if_neg hcx, List.append_nil]
    · simp only [List.map_cons, List.map_nil]
      rw [first_col_content_append_one_new X c hxmem, col_scores_append_one,
        col_scores_nil_of_new X _ hxmem, if_pos rfl, List.nil_append]

lemma merge_columns_foldl (cols : List ColEntry) :
    ∀ X : List ColEntry,
      cols.foldl merge_columns_step (col_acc_map X) = col_acc_map (X ++ cols) := by
  induction cols with
  | nil => intro X; simp
  | cons c cs ih =>
      intro X
      rw [List.foldl_cons, merge_columns_step_acc_map, ih (X ++ [c])]
      simp

lemma upsert_not_mem {κ β : Type} [DecidableEq κ] (l : List (κ × β)) (k : κ)
    (f : β → β) (init : β) (hk : ¬ k ∈ l.map Prod.fst) :
    upsert l k f init = l ++ [(k, init)] := by
  induction l with
  | nil => rfl
  | cons kv rest ih =>
      simp only [upsert]
      rw [if_neg (by rintro rfl; exact hk (by simp)),
        ih (fun h => hk (by simp [h]))]
      simp

lemma seed_columns_eq_acc_map (cols : List ColEntry)
    (h : (cols.map (fun c => c.id)).Nodup) :
    seed_columns cols = col_acc_map cols := by
  have hgen : ∀ (cs : List ColEntry) (m : List (String × ColAcc)),
      (cs.map (fun c => c.id)).Nodup →
      (∀ c ∈ cs, ¬ c.id ∈ m.map Prod.fst) →
      cs.foldl (fun m c => assocSet m c.id ⟨c.content, [c.score]⟩) m
        = cs.foldl merge_columns_step m := by
    intro cs
    induction cs with
    | nil => intro m _ _; rfl
    | cons c rest ih =>
        intro m hnd hdisj
        simp only [List.foldl_cons]
        have hcm : ¬ c.id ∈ m.map Prod.fst := hdisj c (by simp)
        have h1 : assocSet m c.id ⟨c.content, [c.score]⟩ = m ++ [(c.id, ⟨c.content, [c.score]⟩)] :=
          upsert_not_mem m c.id _ _ hcm
        have h2 : merge_columns_step m c = m ++ [(c.id, ⟨c.content, [c.score]⟩)] :=
          upsert_not_mem m c.id _ _ hcm
        rw [h1, h2]
        refine ih (m ++ [(c.id, ⟨c.content, [c.score]⟩)]) ?_ ?_
        · simpa using (List.nodup_cons.1 (by simpa using hnd)).2
        intro c0 hc0
        rw [List.map_append, List.mem_append]
        rintro (hin | hin)
        · exact hdisj c0 (by simp [hc0]) hin
        · have : c0.id = c.id := by simpa using hin
          have hne : c.id ∉ rest.map (fun c => c.id) :=
            (List.nodup_cons.1 (by simpa using hnd)).1
          exact hne (this ▸ List.mem_map_of_mem _ hc0)
  have := hgen cols [] h (by simp)
  rw [seed_columns, this]
  have h0 : (col_acc_map []) = [] := rfl
  rw [show (cols.foldl merge_columns_step [] : List (String × ColAcc))
      = cols.foldl merge_columns_step (col_acc_map []) from rfl,
    merge_columns_foldl cols [], List.nil_append]

lemma occurrences_append_one (l : List TableEntry) (t : TableEntry) (pid : String) :
    occurrences (l ++ [t]) pid
      = occurrences l pid ++ (if t.id = pid then [t] else []) := by
  simp only [occurrences, List.filter_append]
  congr 1
  by_cases h : t.id = pid
  · simp [List.filter_cons, h]
  · simp [List.filter_cons, h]

lemma parent_scores_append_one (l : List TableEntry) (t : TableEntry) (pid : String) :
    parent_scores (l ++ [t]) pid
      = parent_scores l pid ++ (if t.id = pid then [t.score] else []) := by
  rw [parent_scores, occurrences_append_one, List.map_append, parent_scores]
  congr 1
  by_cases h : t.id = pid
  · simp [h]
  · simp [h]

lemma all_columns_append_one (l : List TableEntry) (t : TableEntry) (pid : String) :
    all_columns (l ++ [t]) pid
      = all_columns l pid ++ (if t.id = pid then t.columns else []) := by
  rw [all_columns, occurrences_append_one, List.flatMap_append, all_columns]
  congr 1
  by_cases h : t.id = pid
  · simp [h]
  · simp [h]

lemma parent_find_isSome_of_mem (l : List TableEntry) (pid : String)
    (h : pid ∈ l.map (fun t => t.id)) :
    (l.find? (fun t => t.id == pid)).isSome := by
  rw [List.find?_isSome]
  rcases List.mem_map.1 h with ⟨t, ht, rfl⟩
  exact ⟨t, ht, by simp⟩

lemma first_parent_content_append_one_mem (l : List TableEntry) (t : TableEntry)
    (pid : String) (h : pid ∈ l.map (fun y => y.id)) :
    first_parent_content (l ++ [t]) pid = first_parent_content l pid := by
  have hs := parent_find_isSome_of_mem l pid h
  simp only [first_parent_content, List.find?_append]
  rcases Option.isSome_iff_exists.1 hs with ⟨a, ha⟩
  simp [ha]

lemma first_parent_content_append_one_new (l : List TableEntry) (t : TableEntry)
    (h : ¬ t.id ∈ l.map (fun y => y.id)) :
    first_parent_content (l ++ [t]) t.id = t.content := by
  have hnone : l.find? (fun y => y.id == t.id) = none := by
    rw [List.find?_eq_none]
    intro a ha hpa
    exact h (List.mem_map.2 ⟨a, ha, by simpa using hpa⟩)
  simp [first_parent_content, List.find?_append, hnone, List.find?]

lemma occurrences_nil_of_new (l : List TableEntry) (pid : String)
    (h : ¬ pid ∈ l.map (fun y => y.id)) :
    occurrences l pid = [] := by
  rw [occurrences, List.filter_eq_nil_iff]
  intro a ha hpa
  exact h (List.mem_map.2 ⟨a, ha, by simpa using hpa⟩)

/-- The accumulated entry of parent `pid`, computed directly from the
flattened input. -/
def table_acc_of (flat : List TableEntry) (pid : String) : TableAcc :=
  ⟨first_parent_content flat pid, parent_scores flat pid,
   col_acc_map (all_columns flat pid)⟩

/-- The accumulated dict of `_merge_search_results` equals the direct per-id
computation over the flattened input, as long as each occurrence's column ids
are pairwise distinct (otherwise the seeding dict comprehension overwrites
earlier duplicates). -/
lemma merge_tables_foldl_spec (flat : List TableEntry)
    (hdist : ∀ t ∈ flat, (t.columns.map (fun c => c.id)).Nodup) :
    flat.foldl merge_tables_step []
      = (parent_ids flat).map (fun pid => (pid, table_acc_of flat pid)) := by
  induction flat using List.reverseRecOn with
  | nil => rfl
  | append_singleton l t ih =>
      have hdl : ∀ t0 ∈ l, (t0.columns.map (fun c => c.id)).Nodup :=
        fun t0 h0 => hdist t0 (List.mem_append_left _ h0)
      have hdt : (t.columns.map (fun c => c.id)).Nodup :=
        hdist t (List.mem_append_right _ (by simp))
      have hnd := first_seen_keys_nodup (fun t : TableEntry => t.id) l
      rw [List.foldl_append, List.foldl_cons, List.foldl_nil, ih hdl]
      simp only [parent_ids] at *
      rw [first_seen_keys_append_one]
      simp only [merge_tables_step]
      by_cases hx : t.id ∈ first_seen_keys (fun t : TableEntry => t.id) l
      · rw [if_pos hx]
        have hup := upsert_map_mem (first_seen_keys (fun t : TableEntry => t.id) l) hnd
          (fun pid => table_acc_of l pid) t.id
          (fun ta => ⟨ta.content, ta.scores ++ [t.score],
            t.columns.foldl merge_columns_step ta.columns⟩)
          ⟨t.content, [t.score], seed_columns t.columns⟩ hx
        simp only at hup
        rw [hup]
        apply List.map_congr_left
        intro pid hpid
        have hmem : pid ∈ l.map (fun y => y.id) := (mem_first_seen_keys _ l pid).1 hpid
        by_cases hpx : pid = t.id
        · subst hpx
          rw [if_pos rfl]
          simp only [table_acc_of]
          rw [first_parent_content_append_one_mem l t t.id hmem,
            parent_scores_append_one, if_pos rfl,
            all_columns_append_one, if_pos rfl,
            merge_columns_foldl t.columns (all_columns l t.id)]
        · rw [if_neg hpx]
          simp only [table_acc_of]
          rw [first_parent_content_append_one_mem l t pid hmem,
            parent_scores_append_one, if_neg (fun h => hpx h.symm),
            all_columns_append_one, if_neg (fun h => hpx h.symm),
            List.append_nil, List.append_nil]
      · rw [if_neg hx]
        have hup := upsert_map_not_mem (first_seen_keys (fun t : TableEntry => t.id) l)
          (fun pid => table_acc_of l pid) t.id
          (fun ta => ⟨ta.content, ta.scores ++ [t.score],
            t.columns.foldl merge_columns_step ta.columns⟩)
          ⟨t.content, [t.score], seed_columns t.columns⟩ hx
        simp only at hup
        rw [hup, List.map_append]
        have hxmem : ¬ t.id ∈ l.map (fun y => y.id) :=
          fun h => hx ((mem_first_seen_keys _ l _).2 h)
        congr 1
        · apply List.map_congr_left
          intro pid hpid
          have hmem : pid ∈ l.map (fun y => y.id) := (mem_first_seen_keys _ l pid).1 hpid
          have hpx : t.id ≠ pid := by rintro rfl; exact hx hpid
          simp only [table_acc_of]
          rw [first_parent_content_append_one_mem l t pid hmem,
            parent_scores_append_one, if_neg hpx,
            all_columns_append_one, if_neg hpx,
            List.append_nil, List.append_nil]
        · simp only [List.map_cons, List.map_nil, table_acc_of]
          rw [first_parent_content_append_one_new l t hxmem,
            parent_scores_append_one, if_pos rfl,
            all_columns_append_one, if_pos rfl]
          rw [show parent_scores l t.id = [] by
              rw [parent_scores, occurrences_nil_of_new l t.id hxmem]; rfl,
            show all_columns l t.id = [] by
              rw [all_columns, occurrences_nil_of_new l t.id hxmem]; rfl,
            List.nil_append, List.nil_append,
            seed_columns_eq_acc_map t.columns hdt]

lemma merge_search_results_eq (multi : List (List TableEntry))
    (hdist : ∀ q ∈ multi, ∀ t ∈ q, (t.columns.map (fun c => c.id)).Nodup) :
    merge_search_results multi = merged_hierarchical_spec multi.flatten := by
  have hd : ∀ t ∈ multi.flatten, (t.columns.map (fun c => c.id)).Nodup := by
    intro t ht
    rcases List.mem_flatten.1 ht with ⟨q, hq, htq⟩
    exact hdist q hq t htq
  simp only [merge_search_results]
  rw [merge_tables_foldl_spec multi.flatten hd, merged_hierarchical_spec]
  congr 1
  rw [List.filterMap_map]
  congr 1
  funext pid
  simp only [Function.comp, table_acc_of]
  have hcol : col_acc_map (all_columns multi.flatten pid)
      = (child_ids multi.flatten pid).map (fun cid =>
          (cid, (⟨first_child_content multi.flatten pid cid,
            child_scores multi.flatten pid cid⟩ : ColAcc))) := rfl
  rw [hcol]
  by_cases h : child_ids multi.flatten pid = []
  · rw [h]
    simp
  · rw [if_neg (fun hh => h (List.map_eq_nil_iff.1 hh)), if_neg h, List.map_map]
    rfl

/-- C4 (amended): provided each parent occurrence lists pairwise-distinct
child ids (without this the seeding dict comprehension keeps only the last
duplicate), every output of `merge_search_results` satisfies the
`MergedHierarchicalResult` contract: the output equals the direct per-id
consolidation — one entry per parent with at least one accumulated child,
first-seen contents, parent and child scores averaged over every occurrence
across sub-queries — and is stably sorted descending by averaged score at
both levels, ties keeping first-seen order. -/
theorem merge_search_results_contract (multi : List (List TableEntry))
    (hdist : ∀ q ∈ multi, ∀ t ∈ q, (t.columns.map (fun c => c.id)).Nodup) :
    merge_search_results multi = merged_hierarchical_spec multi.flatten
    ∧ (∀ p ∈ merge_search_results multi, p.columns ≠ [])
    ∧ (merge_search_results multi).Sorted (fun a b : TableOut => b.score ≤ a.score)
    ∧ (∀ p ∈ merge_search_results multi,
        p.columns.Sorted (fun a b : ColOut => b.score ≤ a.score)) := by
  have hextract : ∀ p ∈ merge_search_results multi,
      ∃ kv : String × TableAcc, kv.2.columns ≠ []
        ∧ p = ⟨kv.2.content, mean kv.2.scores,
            List.insertionSort (fun a b : ColOut => b.score ≤ a.score)
              (kv.2.columns.map (fun ckv => ⟨ckv.2.content, mean ckv.2.scores⟩))⟩ := by
    intro p hp
    simp only [merge_search_results] at hp
    have hp2 := (List.mem_insertionSort _).1 hp
    rcases List.mem_filterMap.1 hp2 with ⟨kv, _, hsome⟩
    by_cases hc : kv.2.columns = []
    · rw [if_pos hc] at hsome; cases hsome
    · rw [if_neg hc] at hsome
      exact ⟨kv, hc, (Option.some.inj hsome).symm⟩
  refine ⟨merge_search_results_eq multi hdist, ?_, ?_, ?_⟩
  · intro p hp
    rcases hextract p hp with ⟨kv, hc, rfl⟩
    intro hnil
    apply hc
    have hlen := congrArg List.length hnil
    rw [List.length_insertionSort, List.length_map] at hlen
    exact List.length_eq_zero.1 hlen
  · simp only [merge_search_results]
    exact @List.sorted_insertionSort TableOut (fun a b => b.score ≤ a.score) _
      ⟨fun a b => le_total b.score a.score⟩ ⟨fun a b c h1 h2 => le_trans h2 h1⟩ _
  · intro p hp
    rcases hextract p hp with ⟨kv, hc, rfl⟩
    exact @List.sorted_insertionSort ColOut (fun a b => b.score ≤ a.score) _
      ⟨fun a b => le_total b.score a.score⟩ ⟨fun a b c h1 h2 => le_trans h2 h1⟩ _

/-- C4 counterexample: when a parent's first occurrence repeats a child id,
the output child score is not the mean over every occurrence of that child:
with columns `[(c, x, 1/5), (c, y, 4/5)]` the seeding comprehension keeps only
the last duplicate, so the output child carries score `4/5`, while the mean
over both occurrences of `c` is `1/2`. -/
theorem merge_search_results_dup_child_cex :
    merge_search_results [[⟨"p", "P", 1/2, [⟨"c", "x", 1/5⟩, ⟨"c", "y", 4/5⟩]⟩]]
      = [⟨"P", 1/2, [⟨"y", 4/5⟩]⟩]
    ∧ child_scores [⟨"p", "P", 1/2, [⟨"c", "x", 1/5⟩, ⟨"c", "y", 4/5⟩]⟩] "p" "c"
      = [1/5, 4/5]
    ∧ mean [1/5, 4/5] = 1/2
    ∧ ((4 : ℚ)/5 ≠ 1/2) := by
  refine ⟨?_, ?_, ?_, by norm_num⟩
  · simp only [merge_search_results, List.flatten, List.foldl, merge_tables_step,
      seed_columns, assocSet, upsert, List.append_nil, List.nil_append]
    norm_num [List.filterMap, List.insertionSort, List.orderedInsert, mean]
  · simp [child_scores, all_columns, occurrences, List.flatMap, List.filter]
  · rw [mean]
    norm_num

/-- Witness for C4 (amended): the claim's scenario — a parent appearing in one
sub-query with a child and in another with zero children — survives with the
non-empty occurrence's child, its score averaged over both occurrences
(`(3/5 + 1/5) / 2 = 2/5`). -/
theorem merge_search_results_contract_witness :
    merge_search_results [[⟨"p", "P", 3/5, [⟨"c", "C", 1/2⟩]⟩], [⟨"p", "P", 1/5, []⟩]]
      = [⟨"P", 2/5, [⟨"C", 1/2⟩]⟩] := by
  have h := (merge_search_results_contract
    [[⟨"p", "P", 3/5, [⟨"c", "C", 1/2⟩]⟩], [⟨"p", "P", 1/5, []⟩]] (by decide)).1
  rw [h]
  simp only [merged_hierarchical_spec, parent_ids, child_ids, all_columns, occurrences,
    first_seen_keys, first_parent_content, first_child_content, parent_scores,
    child_scores, List.flatten, List.foldl, List.flatMap, List.filter, List.find?,
    List.filterMap, List.map, List.append_nil, List.nil_append]
  norm_num [List.insertionSort, List.orderedInsert, mean]
